import Mathlib

/-!
GoPiper core: shallow embedding and verification

This file embeds the core of the GoPiper text-to-speech pipeline in Lean 4:

* the text normalizer `normalizeTextForTTS` and the sentence segmenter
  `splitSentences` (with `enhanceSentenceForTTS`, `splitLongSentence`,
  `mergeShortFragments`),
* the WAV concatenation routine `concatenateAudioNative`,
* the parallel synthesis orchestrator `generateAudioParallel`,
* the bounded-concurrency `ProcessQueue` as a labelled transition system.

Go strings are modelled as `List Char` (Go iterates runes; `len` on a Go
string counts UTF-8 bytes, modelled by `byteLen` below).  The Go regular
expressions of the source are hand-compiled to scanning functions with
Go's leftmost-first, non-overlapping replacement semantics
(`strings.ReplaceAll` / `regexp.ReplaceAllString` restart after the end of
each replaced match).  RE2's Perl classes `\s`, `\w`, `\b` are ASCII-only
and are modelled accordingly; `unicode.IsSpace` / `unicode.IsUpper`
(used in the rune scan) are modelled over the Basic Latin and Latin-1
ranges, which cover every character class the program distinguishes.
-/

set_option maxRecDepth 10000

namespace GoPiper

/-! ### Character classes -/

/-- RE2's `\s` class: ASCII whitespace `[\t\n\f\r ]`. -/
def reWs (c : Char) : Bool :=
  c = ' ' || c = '\t' || c = '\n' || c = '\x0c' || c = '\r'

/-- Go's `unicode.IsSpace`, modelled over Latin-1 plus the common Unicode
space code points. -/
def goIsSpace (c : Char) : Bool :=
  let n := c.toNat
  n = 0x9 || n = 0xa || n = 0xb || n = 0xc || n = 0xd || n = 0x20 ||
  n = 0x85 || n = 0xa0 || n = 0x1680 ||
  (0x2000 ≤ n && n ≤ 0x200a) ||
  n = 0x2028 || n = 0x2029 || n = 0x202f || n = 0x205f || n = 0x3000

/-- Go's `unicode.IsUpper`, modelled over Basic Latin and Latin-1
(`A`–`Z` and `À`–`Þ` except `×`). -/
def goIsUpper (c : Char) : Bool :=
  ('A' ≤ c && c ≤ 'Z') ||
  (0xc0 ≤ c.toNat && c.toNat ≤ 0xde && c.toNat ≠ 0xd7)

/-- The literal character class `[A-ZÁÉÍÓÚÑÜ]` used by the normalizer's
regular expressions. -/
def reUpper (c : Char) : Bool :=
  ('A' ≤ c && c ≤ 'Z') ||
  c = 'Á' || c = 'É' || c = 'Í' || c = 'Ó' || c = 'Ú' || c = 'Ñ' || c = 'Ü'

/-- RE2's ASCII `\w` class `[0-9A-Za-z_]`. -/
def reWord (c : Char) : Bool :=
  ('0' ≤ c && c ≤ '9') || ('A' ≤ c && c ≤ 'Z') || ('a' ≤ c && c ≤ 'z') || c = '_'

/-- Case folding for `(?i)` matching: ASCII letters plus the accented
letters appearing in the source's patterns. -/
def foldLower (c : Char) : Char :=
  if 'A' ≤ c && c ≤ 'Z' then Char.ofNat (c.toNat + 32)
  else if c = 'Á' then 'á' else if c = 'É' then 'é'
  else if c = 'Í' then 'í' else if c = 'Ó' then 'ó'
  else if c = 'Ú' then 'ú' else if c = 'Ñ' then 'ñ'
  else if c = 'Ü' then 'ü' else c

/-- Go `len` on a string: total UTF-8 byte length. -/
def byteLen (s : List Char) : Nat :=
  (s.map Char.utf8Size).sum

/-- Go `strings.TrimSpace` (Unicode space on both ends). -/
def trimSpace (s : List Char) : List Char :=
  ((s.dropWhile goIsSpace).reverse.dropWhile goIsSpace).reverse

/-- Does `pat` occur at the head of `s`? -/
def startsList (pat s : List Char) : Bool :=
  match pat, s with
  | [], _ => true
  | _ :: _, [] => false
  | p :: ps, c :: cs => p = c && startsList ps cs

/-- Does `pat` occur at the head of `s`, comparing case-insensitively
(`(?i)` with `foldLower` folding)? -/
def startsListCI (pat s : List Char) : Bool :=
  match pat, s with
  | [], _ => true
  | _ :: _, [] => false
  | p :: ps, c :: cs => foldLower p = foldLower c && startsListCI ps cs

/-- Does `pat` occur anywhere in `s` (Go `strings.Contains`)? -/
def containsSub (pat s : List Char) : Bool :=
  match s with
  | [] => startsList pat []
  | _ :: cs => startsList pat s || containsSub pat cs

/-! ### Leftmost-first scan-and-replace engine

`scanRepl m s` scans `s` left to right; wherever the matcher `m` succeeds
on the remaining suffix it emits the returned replacement, skips the
returned number of consumed characters (which is always ≥ 1 for the
matchers below, as none of the source's patterns matches the empty
string), and continues after the match — exactly Go's non-overlapping
`ReplaceAll` semantics for these patterns. -/

def scanReplFuel (m : List Char → Option (List Char × Nat)) : Nat → List Char → List Char
  | 0, s => s
  | fuel + 1, s =>
    match s with
    | [] => []
    | c :: rest =>
      match m (c :: rest) with
      | some (r, k) => r ++ scanReplFuel m fuel (List.drop (k - 1) rest)
      | none => c :: scanReplFuel m fuel rest

/-- Entry point of the scan: every matcher below consumes at least one
character on success, so a fuel of `s.length` is never exhausted. -/
def scanRepl (m : List Char → Option (List Char × Nat)) (s : List Char) : List Char :=
  scanReplFuel m s.length s

/-- Go `strings.ReplaceAll` for a non-empty literal pattern. -/
def replaceAll (old new : List Char) (s : List Char) : List Char :=
  scanRepl (fun t => if old ≠ [] && startsList old t then some (new, old.length) else none) s

/-! ### The normalizer's regex passes, in source order -/

/-- Pass `\n\s*\n` → `". "`: a newline, optional ASCII whitespace, and a second
newline; with the greedy `\s*`, the match extends to the last newline
inside the whitespace run. -/
def mNl2 (s : List Char) : Option (List Char × Nat) :=
  match s with
  | '\n' :: rest =>
    let run := (List.takeWhile reWs rest)
    match run.reverse.findIdx? (· = '\n') with
    | some j => some ((". ").data, run.length - j + 1)
    | none => none
  | _ => none

/-- Pass `¿¿+` (and the analogous doubled-mark patterns): a run of ≥ 2 copies of
`c` collapses to one. -/
def mRun2 (mark : Char) (s : List Char) : Option (List Char × Nat) :=
  match s with
  | c :: c' :: rest =>
    if c = mark && c' = mark then
      some ([mark], 2 + (List.takeWhile (· = mark) rest).length)
    else none
  | _ => none

/-- The `ReplaceAllStringFunc` on `¿([^?]*?)\?`: rewrite `¿…?` trimming the
interior.  The lazy interior stops at the first `?`. -/
def mQTrim (s : List Char) : Option (List Char × Nat) :=
  match s with
  | '¿' :: rest =>
    if containsSub ['?'] rest then
      let content := List.takeWhile (· ≠ '?') rest
      some ('¿' :: trimSpace content ++ ['?'], content.length + 2)
    else none
  | _ => none

/-- The `ReplaceAllStringFunc` on `¡([^!]*?)!`. -/
def mETrim (s : List Char) : Option (List Char × Nat) :=
  match s with
  | '¡' :: rest =>
    if containsSub ['!'] rest then
      let content := List.takeWhile (· ≠ '!') rest
      some ('¡' :: trimSpace content ++ ['!'], content.length + 2)
    else none
  | _ => none

/-- Pass `¿\s*([^?]*?)\.` → `¿$1?`: matches when the first `.` after `¿` comes
before any `?`; `$1` is the content after the greedy whitespace run, up to
that period. -/
def mQFix (s : List Char) : Option (List Char × Nat) :=
  match s with
  | '¿' :: rest =>
    let ws := List.takeWhile reWs rest
    let afterWs := List.drop ws.length rest
    let content := List.takeWhile (fun c => c ≠ '.' && c ≠ '?') afterWs
    match List.drop content.length afterWs with
    | '.' :: _ => some ('¿' :: content ++ ['?'], 1 + ws.length + content.length + 1)
    | _ => none
  | _ => none

/-- Pass `¡\s*([^!]*?)\.` → `¡$1!`. -/
def mEFix (s : List Char) : Option (List Char × Nat) :=
  match s with
  | '¡' :: rest =>
    let ws := List.takeWhile reWs rest
    let afterWs := List.drop ws.length rest
    let content := List.takeWhile (fun c => c ≠ '.' && c ≠ '!') afterWs
    match List.drop content.length afterWs with
    | '.' :: _ => some ('¡' :: content ++ ['!'], 1 + ws.length + content.length + 1)
    | _ => none
  | _ => none

/-- Pass `:\s*$` → `"."`: a colon followed only by whitespace up to end of text. -/
def mColonEnd (s : List Char) : Option (List Char × Nat) :=
  match s with
  | ':' :: rest =>
    if rest.all reWs then some (['.'], 1 + rest.length) else none
  | _ => none

/-- Pass `:\s*([A-ZÁÉÍÓÚÑÜ])` → `". $1"`. -/
def mColonUpper (s : List Char) : Option (List Char × Nat) :=
  match s with
  | ':' :: rest =>
    let ws := List.takeWhile reWs rest
    match List.drop ws.length rest with
    | u :: _ => if reUpper u then some (['.', ' ', u], 1 + ws.length + 1) else none
    | [] => none
  | _ => none

/-- Pass `\s+([.!?¿¡,;:])` → `$1`. -/
def mWsPunct (s : List Char) : Option (List Char × Nat) :=
  match s with
  | c :: _ =>
    if reWs c then
      let ws := List.takeWhile reWs s
      match List.drop ws.length s with
      | p :: _ =>
        if p = '.' || p = '!' || p = '?' || p = '¿' || p = '¡' || p = ',' || p = ';' || p = ':'
        then some ([p], ws.length + 1) else none
      | [] => none
    else none
  | [] => none

/-- Pass `([.!?])\s*([¿¡])` → `"$1 $2"`. -/
def mPunctOpen (s : List Char) : Option (List Char × Nat) :=
  match s with
  | c :: rest =>
    if c = '.' || c = '!' || c = '?' then
      let ws := List.takeWhile reWs rest
      match List.drop ws.length rest with
      | q :: _ =>
        if q = '¿' || q = '¡' then some ([c, ' ', q], 1 + ws.length + 1) else none
      | [] => none
    else none
  | [] => none

/-- Pass `([.!?])\s*([A-ZÁÉÍÓÚÑÜ])` → `"$1 $2"`. -/
def mPunctUpper (s : List Char) : Option (List Char × Nat) :=
  match s with
  | c :: rest =>
    if c = '.' || c = '!' || c = '?' then
      let ws := List.takeWhile reWs rest
      match List.drop ws.length rest with
      | u :: _ => if reUpper u then some ([c, ' ', u], 1 + ws.length + 1) else none
      | [] => none
    else none
  | [] => none

/-- Pass `([,:;])\s*([A-ZÁÉÍÓÚÑÜ])` → `"$1 $2"`. -/
def mCommaUpper (s : List Char) : Option (List Char × Nat) :=
  match s with
  | c :: rest =>
    if c = ',' || c = ':' || c = ';' then
      let ws := List.takeWhile reWs rest
      match List.drop ws.length rest with
      | u :: _ => if reUpper u then some ([c, ' ', u], 1 + ws.length + 1) else none
      | [] => none
    else none
  | [] => none

/-- Pass `\.{4,}` → `"..."`. -/
def mDots4 (s : List Char) : Option (List Char × Nat) :=
  match s with
  | '.' :: rest =>
    let n := 1 + (List.takeWhile (· = '.') rest).length
    if 4 ≤ n then some (['.', '.', '.'], n) else none
  | _ => none

/-- Pass `([!?]){2,}` → `$1` (with a repeated group, `$1` is its last
iteration: the last character of the run). -/
def mBangRun (s : List Char) : Option (List Char × Nat) :=
  match s with
  | c :: rest =>
    if c = '!' || c = '?' then
      let run := c :: List.takeWhile (fun x => x = '!' || x = '?') rest
      if 2 ≤ run.length then some ([run.getLastD c], run.length) else none
    else none
  | [] => none

/-- Pass `\s+` → `" "`. -/
def mWsCollapse (s : List Char) : Option (List Char × Nat) :=
  match s with
  | c :: _ =>
    if reWs c then some ([' '], (List.takeWhile reWs s).length) else none
  | [] => none

/-- The `for strings.Contains(normalized, "..") && !strings.Contains(normalized, "...")`
loop: each iteration replaces every `..` by `.`, strictly shrinking the
string, so `byteLen`-many iterations always suffice. -/
def dotLoop : Nat → List Char → List Char
  | 0, s => s
  | fuel + 1, s =>
    if containsSub ['.', '.'] s && !containsSub ['.', '.', '.'] s then
      dotLoop fuel (replaceAll ['.', '.'] ['.'] s)
    else s

/-- Source `normalizeTextForTTS` on rune lists, pass for pass in source order. -/
def normalizeChars (text : List Char) : List Char :=
  let n := text
  let n := scanRepl mNl2 n
  let n := replaceAll ['\n'] [' '] n
  let n := replaceAll ['“'] ['"'] n
  let n := replaceAll ['”'] ['"'] n
  let n := replaceAll ['‘'] ['"'] n
  let n := replaceAll ['’'] ['"'] n
  let n := replaceAll ['–'] ['-'] n
  let n := replaceAll ['—'] ['-'] n
  let n := replaceAll ['…'] ['.', '.', '.'] n
  let n := replaceAll ['¿', '¡'] ['¿'] n
  let n := replaceAll ['¡', '¿'] ['¡'] n
  let n := replaceAll ['?', '!'] ['?'] n
  let n := replaceAll ['!', '?'] ['!'] n
  let n := scanRepl (mRun2 '¿') n
  let n := scanRepl (mRun2 '¡') n
  let n := scanRepl (mRun2 '?') n
  let n := scanRepl (mRun2 '!') n
  let n := scanRepl mQTrim n
  let n := scanRepl mETrim n
  let n := scanRepl mQFix n
  let n := scanRepl mEFix n
  let n := scanRepl mColonEnd n
  let n := scanRepl mColonUpper n
  let n := scanRepl mWsPunct n
  let n := scanRepl mPunctOpen n
  let n := scanRepl mPunctUpper n
  let n := scanRepl mCommaUpper n
  let n := scanRepl mDots4 n
  let n := dotLoop (byteLen n) n
  let n := scanRepl mBangRun n
  let n := scanRepl mWsCollapse n
  trimSpace n

/-- Source `normalizeTextForTTS` on Go strings. -/
def normalizeTextForTTS (s : String) : String :=
  String.mk (normalizeChars s.data)

/-! ### Sentence enhancement -/

/-- Pass `[\r\n\t]+` → `" "`. -/
def mRNT (s : List Char) : Option (List Char × Nat) :=
  match s with
  | c :: _ =>
    if c = '\r' || c = '\n' || c = '\t' then
      some ([' '], (List.takeWhile (fun x => x = '\r' || x = '\n' || x = '\t') s).length)
    else none
  | [] => none

/-- Option-lifted ASCII `\w` test (an absent character is a non-word
position, as at the ends of the text). -/
def isWordOpt : Option Char → Bool
  | some c => reWord c
  | none => false

/-- Does the keyword `w` match at the head of `s` as `(?i)\bw\b`, with
`prev` the character immediately before this position?  The `\b`
assertions use RE2's ASCII word class, so a keyword ending in an accented
letter needs a following ASCII word character to close its boundary. -/
def wordAt (w : List Char) (prev : Option Char) (s : List Char) : Bool :=
  startsListCI w s &&
  (isWordOpt prev != isWordOpt s.head?) &&
  (isWordOpt (s.take w.length).getLast? != isWordOpt (s.drop w.length).head?)

/-- Go `regexp.MatchString` for `(?i)\b(w1|w2|…)\b`: does any keyword
match at any position? -/
def hasWordCI (kws : List (List Char)) : Option Char → List Char → Bool
  | _, [] => false
  | prev, c :: rest =>
    kws.any (fun w => wordAt w prev (c :: rest)) || hasWordCI kws (some c) rest

/-- Interrogative keywords of `enhanceSentenceForTTS`. -/
def interrogativeKws : List (List Char) :=
  ["qué".data, "quién".data, "cuándo".data, "dónde".data, "cómo".data,
   "por qué".data, "cuál".data]

/-- Exclamatory keywords for the missing-terminal branch. -/
def exclamatoryKws : List (List Char) :=
  ["wow".data, "increíble".data, "excelente".data, "fantástico".data]

/-- Affirmative/negative markers blocking the `¿` prepend. -/
def yesNoKws : List (List Char) :=
  ["yes".data, "no".data, "si".data, "sí".data]

/-- Exclamatory keywords for the `¡` prepend. -/
def exclamatoryKwsBang : List (List Char) :=
  ["wow".data, "increíble".data, "excelente".data, "fantástico".data,
   "bravo".data, "genial".data]

/-- Source `enhanceSentenceForTTS` on rune lists. -/
def enhanceChars (sentence : List Char) : List Char :=
  let e := scanRepl mRNT sentence
  let e := scanRepl mWsCollapse e
  let e := trimSpace e
  if e = [] then e else
  let hasEnd := match e.getLast? with
    | some c => c = '.' || c = '!' || c = '?' || c = '…'
    | none => false
  let e := if hasEnd then e
    else if e.head? = some '¿' || hasWordCI interrogativeKws none e then e ++ ['?']
    else if e.head? = some '¡' || hasWordCI exclamatoryKws none e then e ++ ['!']
    else e ++ ['.']
  let e := if e.getLast? = some '?' && !containsSub ['¿'] e && !hasWordCI yesNoKws none e
    then '¿' :: e else e
  let e := if e.getLast? = some '!' && !containsSub ['¡'] e && hasWordCI exclamatoryKwsBang none e
    then '¡' :: e else e
  let e := scanRepl (mRun2 '¿') e
  let e := scanRepl (mRun2 '¡') e
  let e := scanRepl (mRun2 '?') e
  let e := scanRepl (mRun2 '!') e
  e

/-- Source `enhanceSentenceForTTS` on Go strings. -/
def enhanceSentenceForTTS (s : String) : String :=
  String.mk (enhanceChars s.data)

/-! ### Long-sentence splitting -/

/-- Clause-break connectives of `splitLongSentence`, in the source's
alternation order (RE2 tries alternatives in order at each position). -/
def connectives : List (List Char) :=
  ["pero".data, "sin embargo".data, "además".data, "por tanto".data,
   "por lo tanto".data, "no obstante".data, "mientras".data, "cuando".data,
   "donde".data, "como".data, "que".data, "si".data, "aunque".data,
   "porque".data, "ya que".data, "dado que".data, "puesto que".data]

/-- Match of `(?i)([,:;]\s+(?:pero|sin embargo|…))` at the head of `s`,
returning the number of characters consumed. -/
def connMatchLen (s : List Char) : Option Nat :=
  match s with
  | c :: rest =>
    if c = ',' || c = ':' || c = ';' then
      let ws := List.takeWhile reWs rest
      if ws.length = 0 then none
      else
        let afterWs := List.drop ws.length rest
        connectives.findSome? (fun w =>
          if startsListCI w afterWs then some (1 + ws.length + w.length) else none)
    else none
  | [] => none

/-- Go `Regexp.Split` on the connectives pattern: the parts of `s` between
(and around) the non-overlapping leftmost matches; matched separators are
dropped (Go's `Split` does not retain capture groups). -/
def goSplitPartsFuel : Nat → List Char → List Char → List (List Char)
  | 0, s, cur => [cur ++ s]
  | fuel + 1, s, cur =>
    match s with
    | [] => [cur]
    | c :: rest =>
      match connMatchLen (c :: rest) with
      | some k => cur :: goSplitPartsFuel fuel (List.drop (k - 1) rest) []
      | none => goSplitPartsFuel fuel rest (cur ++ [c])

/-- Entry point of the split: each step consumes at least one character,
so a fuel of `s.length` is never exhausted. -/
def goSplitParts (s cur : List Char) : List (List Char) :=
  goSplitPartsFuel s.length s cur

/-- Loop body of `splitLongSentence`: when appending the next part would
push a non-empty accumulated chunk past 200 bytes, flush the chunk
(trimmed and re-enhanced) and restart from the part; otherwise append the
part to the chunk. -/
def splitLongStep (acc : List (List Char) × List Char) (part : List Char) :
    List (List Char) × List Char :=
  if 0 < byteLen acc.2 && 200 < byteLen (acc.2 ++ part) then
    (if trimSpace acc.2 ≠ [] then acc.1 ++ [enhanceChars (trimSpace acc.2)] else acc.1, part)
  else (acc.1, acc.2 ++ part)

/-- Source `splitLongSentence` on rune lists: accumulate parts into chunks,
flush the leftover chunk, and fall back to the whole sentence when no
chunk was produced. -/
def splitLongChars (sentence : List Char) : List (List Char) :=
  let parts := goSplitParts sentence []
  let fin := parts.foldl splitLongStep ([], [])
  let chunks := if trimSpace fin.2 ≠ [] then fin.1 ++ [enhanceChars (trimSpace fin.2)] else fin.1
  if chunks = [] then [sentence] else chunks

/-- Source `splitLongSentence` on Go strings. -/
def splitLongSentence (s : String) : List String :=
  (splitLongChars s.data).map String.mk

/-! ### Word counting and short-fragment merging -/

/-- Go `len(regexp.MustCompile` (backslash-b w+ backslash-b) `.FindAllString(s, -1))`:
with the ASCII `\w` class and greedy `\w+`, the matches are exactly the
maximal runs of word characters, so the count is the number of such runs. -/
def countWordRunsAux (inRun : Bool) : List Char → Nat
  | [] => 0
  | c :: rest =>
    if reWord c then (if inRun then 0 else 1) + countWordRunsAux true rest
    else countWordRunsAux false rest

/-- Entry point of the word count: a run is counted at its first
character. -/
def countWordRuns (s : List Char) : Nat :=
  countWordRunsAux false s

/-- Short-fragment test of `mergeShortFragments`: fewer than 4 `\w`-runs
and byte length under 30. -/
def isShortFragment (s : List Char) : Bool :=
  countWordRuns s < 4 && byteLen s < 30

/-- Loop of `mergeShortFragments`, with the already-emitted output kept
reversed in `acc`.  A short fragment joins the previous output sentence if
one exists, else absorbs the next input sentence (skipping it), else
stands alone.  In the final clause (a lone sentence with empty output) the
source emits the sentence whether or not it is short, so the branch is
collapsed. -/
def mergeAux : List (List Char) → List (List Char) → List (List Char)
  | [], acc => acc.reverse
  | s :: rest, prev :: acc' =>
    if isShortFragment s then mergeAux rest ((prev ++ ' ' :: s) :: acc')
    else mergeAux rest (s :: prev :: acc')
  | s :: t :: rest', [] =>
    if isShortFragment s then mergeAux rest' [s ++ ' ' :: t]
    else mergeAux (t :: rest') [s]
  | [s], [] => [s]

/-- Source `mergeShortFragments` on rune lists. -/
def mergeShortChars (sentences : List (List Char)) : List (List Char) :=
  mergeAux sentences []

/-- Source `mergeShortFragments` on Go strings. -/
def mergeShortFragments (sentences : List String) : List String :=
  (mergeShortChars (sentences.map String.data)).map String.mk

/-! ### The sentence scan and `splitSentences` -/

/-- Abbreviation list of `splitSentences`, in source order. -/
def abbreviationsList : List (List Char) :=
  ["Sr.".data, "Sra.".data, "Srta.".data, "Dr.".data, "Dra.".data,
   "Prof.".data, "Profa.".data, "Lic.".data, "Licda.".data, "Ing.".data,
   "Inga.".data, "Arq.".data, "Arqa.".data, "Mtro.".data, "Mtra.".data,
   "etc.".data, "vs.".data, "p.ej.".data, "Mr.".data, "Mrs.".data,
   "Ms.".data, "Inc.".data, "Ltd.".data, "Corp.".data, "Co.".data,
   "e.g.".data, "i.e.".data, "cf.".data, "vol.".data, "cap.".data,
   "art.".data, "núm.".data, "pág.".data, "ed.".data, "op.cit.".data]

/-- Placeholder token `__ABBREV_i__` protecting abbreviation `i`. -/
def placeholder (i : Nat) : List Char :=
  "__ABBREV_".data ++ (toString i).data ++ "__".data

/-- Replace every abbreviation occurrence by its placeholder, in list
order (sequential `strings.ReplaceAll` calls). -/
def protectAbbrevs (s : List Char) : List Char :=
  abbreviationsList.enum.foldl (fun acc p => replaceAll p.2 (placeholder p.1) acc) s

/-- Restore placeholders to their abbreviations.  The Go source iterates a
map in unspecified order; since no placeholder or abbreviation overlaps
another, the result does not depend on the order, and we use list order. -/
def restoreAbbrevs (s : List Char) : List Char :=
  abbreviationsList.enum.foldl (fun acc p => replaceAll (placeholder p.1) p.2 acc) s

/-- Emit a flushed buffer: the source appends the trimmed sentence only
when its byte length exceeds 3. -/
def pushIfLong (t : List Char) : List (List Char) :=
  if 3 < byteLen t then [t] else []

/-- Character scan of `splitSentences`: accumulate runes into `cur`; at a
terminal mark, close the buffer at end of text, or when the next
non-whitespace rune is uppercase and the trimmed buffer is longer than 10
bytes, or when that rune is `¿`/`¡`; any leftover is closed at the end. -/
def scanSentences : List Char → List Char → List (List Char)
  | [], cur => pushIfLong (trimSpace cur)
  | c :: rest, cur =>
    let cur' := cur ++ [c]
    if c = '.' || c = '!' || c = '?' then
      match rest with
      | [] => pushIfLong (trimSpace cur')
      | _ :: _ =>
        match (rest.dropWhile goIsSpace).head? with
        | some nm =>
          if (goIsUpper nm && 10 < byteLen (trimSpace cur')) || nm = '¿' || nm = '¡' then
            pushIfLong (trimSpace cur') ++ scanSentences rest []
          else scanSentences rest cur'
        | none => scanSentences rest cur'
    else scanSentences rest cur'

/-- Per-sentence processing step of `splitSentences`: restore the
abbreviation placeholders, enhance, drop byte length ≤ 3, and hard-split
sentences longer than 400 bytes. -/
def processSentence (s : List Char) : List (List Char) :=
  let s1 := restoreAbbrevs s
  let s2 := enhanceChars s1
  if 3 < byteLen s2 then
    if 400 < byteLen s2 then splitLongChars s2 else [s2]
  else []

/-- Source `splitSentences` on rune lists: normalize, protect
abbreviations, scan, then restore, enhance, split long sentences, and
merge short fragments. -/
def splitSentencesChars (text : List Char) : List (List Char) :=
  if trimSpace text = [] then [] else
  let normalizedText := normalizeChars text
  let protectedText := protectAbbrevs normalizedText
  let sentences := scanSentences protectedText []
  let processed := sentences.flatMap processSentence
  mergeShortChars processed

/-- Source `splitSentences` on Go strings. -/
def splitSentences (text : String) : List String :=
  (splitSentencesChars text.data).map String.mk


/-! ### Claim-side (spec-worded) variants for comparison

The spec describes the scan's length guard and the short-fragment test in
characters and words; the source measures UTF-8 bytes (Go `len`) and
ASCII `\w`-runs.  The following definitions follow the spec's words, to
be compared against the source-derived definitions above. -/

/-- Claim-worded variant of `scanSentences`: identical except that the
length guard counts characters (`List.length`) instead of UTF-8 bytes. -/
def scanSentencesSpec : List Char → List Char → List (List Char)
  | [], cur => pushIfLong (trimSpace cur)
  | c :: rest, cur =>
    let cur' := cur ++ [c]
    if c = '.' || c = '!' || c = '?' then
      match rest with
      | [] => pushIfLong (trimSpace cur')
      | _ :: _ =>
        match (rest.dropWhile goIsSpace).head? with
        | some nm =>
          if (goIsUpper nm && 10 < (trimSpace cur').length) || nm = '¿' || nm = '¡' then
            pushIfLong (trimSpace cur') ++ scanSentencesSpec rest []
          else scanSentencesSpec rest cur'
        | none => scanSentencesSpec rest cur'
    else scanSentencesSpec rest cur'

/-- Boundary condition of the (amended) claim C7: the next non-whitespace
rune is uppercase and the trimmed buffer is longer than 10 UTF-8 bytes,
or that rune opens a question/exclamation. -/
def boundaryCloses (cur' rest : List Char) : Bool :=
  match (rest.dropWhile goIsSpace).head? with
  | some nm => (goIsUpper nm && 10 < byteLen (trimSpace cur')) || nm = '¿' || nm = '¡'
  | none => false

/-- Number of whitespace-separated words, the natural reading of the
claim's "fewer than 4 words". -/
def claimWordCountAux (inWord : Bool) : List Char → Nat
  | [] => 0
  | c :: rest =>
    if goIsSpace c then claimWordCountAux false rest
    else (if inWord then 0 else 1) + claimWordCountAux true rest

/-- Entry point of the claim-side word count. -/
def claimWordCount (s : List Char) : Nat :=
  claimWordCountAux false s

/-- Claim-worded short-fragment test: fewer than 4 words and fewer than
30 characters. -/
def claimIsShortFragment (s : List Char) : Bool :=
  claimWordCount s < 4 && s.length < 30

/-! ### WAV concatenation (`audio_native.go`)

Files are modelled as an association list from path to decoded WAV data;
`readWAVFile` looks a path up (failing like the source when the file is
absent or undecodable), `writeWAVFile` stores data at a path, and
`os.Remove` drops a path.  The source's disk-write step has no failure
mode in this model. -/

/-- Header fields `readWAVFile` extracts: sample rate, channel count,
bits per sample. -/
structure WAVHeader where
  sampleRate : Nat
  numChannels : Nat
  bitsPerSample : Nat
deriving DecidableEq, Repr

/-- Decoded WAV file: header metadata plus the PCM sample sequence
(`audio.IntBuffer.Data`). -/
structure WavData where
  header : WAVHeader
  samples : List Int
deriving DecidableEq, Repr

/-- File system: paths mapped to decoded WAV contents. -/
abbrev FileSys : Type := List (String × WavData)

/-- Model of `readWAVFile`: look the path up, failing when absent. -/
def readWAVFile (fs : FileSys) (path : String) : Except String WavData :=
  match List.find? (fun p => p.1 = path) fs with
  | some p => .ok p.2
  | none => .error "error opening WAV file"

/-- Model of `os.Remove`: drop the path. -/
def removeFile (fs : FileSys) (path : String) : FileSys :=
  List.filter (fun p => p.1 ≠ path) fs

/-- Model of `writeWAVFile`: store `d` at `path` (overwriting). -/
def writeWAVFile (fs : FileSys) (path : String) (d : WavData) : FileSys :=
  (path, d) :: removeFile fs path

/-- Loop over the files after the first in `concatenateAudioNative`: read
each, fail on the first read error or header mismatch against the first
file's header, and concatenate the sample sequences in order. -/
def concatLoop (fs : FileSys) (hdr : WAVHeader) : List String → Except String (List Int)
  | [] => .ok []
  | f :: rest =>
    match readWAVFile fs f with
    | .error e => .error ("error reading file " ++ f ++ ": " ++ e)
    | .ok buf =>
      if buf.header = hdr then
        match concatLoop fs hdr rest with
        | .error e => .error e
        | .ok tailSamples => .ok (buf.samples ++ tailSamples)
      else .error ("audio format mismatch in file " ++ f)

/-- Source `concatenateAudioNative`: empty input fails; otherwise read the
first file for the reference format, validate and concatenate the rest,
write the combined buffer with the first file's header to `outputPath`,
then delete every input file.  The first component is the returned
`error`; the second is the resulting file system. -/
def concatenateAudioNative (fs : FileSys) (audioFiles : List String)
    (outputPath : String) : Except String Unit × FileSys :=
  match audioFiles with
  | [] => (.error "no audio files to concatenate", fs)
  | first :: restFiles =>
    match readWAVFile fs first with
    | .error e => (.error ("error reading first file: " ++ e), fs)
    | .ok firstBuf =>
      match concatLoop fs firstBuf.header restFiles with
      | .error e => (.error e, fs)
      | .ok restSamples =>
        let combined : WavData := ⟨firstBuf.header, firstBuf.samples ++ restSamples⟩
        let fs1 := writeWAVFile fs outputPath combined
        (.ok (), audioFiles.foldl removeFile fs1)

/-! ### Parallel synthesis orchestrator (`generateAudioParallel`)

One goroutine per sentence runs the synthesis task through the queue and
— under the mutex — writes a `SentenceResult` into `results` at its own
index.  The goroutines finish in some completion order; since each write
targets its own index, the joined array is the same for every order.  The
collection loop then walks `results` in index order, gathering audio
files until the first error, at which point it deletes the files gathered
so far and returns the error.  `synth i` is the outcome of the external
synthesis call for sentence `i`; `order` is the completion order. -/

/-- Decidable equality for `Except`, used to evaluate the embedding on
concrete inputs. -/
instance {e a : Type} [DecidableEq e] [DecidableEq a] : DecidableEq (Except e a) := fun x y =>
  match x, y with
  | .ok v, .ok w => if h : v = w then isTrue (by rw [h]) else isFalse (by simp [h])
  | .error v, .error w => if h : v = w then isTrue (by rw [h]) else isFalse (by simp [h])
  | .ok _, .error _ => isFalse (by simp)
  | .error _, .ok _ => isFalse (by simp)

/-- Go struct `SentenceResult`. -/
structure SentenceResult where
  index : Nat
  audioFile : String
  sentence : String
  error : Option String
deriving DecidableEq, Repr

/-- Zero value of `SentenceResult` (the array's initial contents). -/
def zeroSentenceResult : SentenceResult := ⟨0, "", "", none⟩

/-- Result the goroutine for sentence `i` writes at index `i`. -/
def taskResult (sentences : List String) (synth : Nat → Except String String)
    (i : Nat) : SentenceResult :=
  match synth i with
  | .ok f => ⟨i, f, sentences.getD i "", none⟩
  | .error e => ⟨i, "", sentences.getD i "", some e⟩

/-- Concurrent write phase: the goroutines, in completion order, each
write their own result at their own index. -/
def writePhase (res : Nat → SentenceResult) :
    List Nat → (Nat → Option SentenceResult) → Nat → Option SentenceResult
  | [], arr => arr
  | i :: order, arr => writePhase res order (fun j => if j = i then some (res i) else arr j)

/-- Collection loop after `wg.Wait()`: gather audio files in index order;
on the first error, return it together with the files gathered so far —
exactly the ones the source then deletes. -/
def collectLoop : List SentenceResult → List String → Except String (List String) × List String
  | [], acc => (.ok acc, [])
  | r :: rest, acc =>
    match r.error with
    | some e =>
      (.error ("error processing sentence " ++ toString (r.index + 1) ++ ": " ++ e), acc)
    | none => collectLoop rest (acc ++ [r.audioFile])

/-- Source `generateAudioParallel`: fan out one task per sentence, join,
then collect.  Returns the source's return value and the list of files
the failure path deletes (empty on success). -/
def generateAudioParallel (sentences : List String)
    (synth : Nat → Except String String) (order : List Nat) :
    Except String (List String) × List String :=
  let n := sentences.length
  let res := taskResult sentences synth
  let arr := writePhase res order (fun _ => none)
  let results := (List.range n).map (fun i => (arr i).getD zeroSentenceResult)
  collectLoop results []

/-- Synthesis outcome used by the failure-path counterexample: sentence 1
fails, sentences 0 and 2 produce artifacts. -/
def cxSynth : Nat → Except String String :=
  fun i => if i = 1 then .error "boom" else .ok ("file" ++ toString i)

/-! ### Bounded-concurrency queue (`queue.go`)

`ProcessQueue` state and its transitions as a labelled step relation.
The running map is keyed by task id, so it is modelled as a `Finset`;
the pending slice is a FIFO list of ids.  `processQueue` holds the lock
for its whole drain loop, but each loop iteration is one `dispatch` step
here — proving the invariants for single steps covers every interleaving
of the loop's iterations as well. -/

/-- Clamping of `NewProcessQueue` / `SetMaxConcurrent` into `[1,32]`. -/
def clampConcurrent (m : Nat) : Nat :=
  if m < 1 then 1 else if m > 32 then 32 else m

/-- Shared scheduler state of `ProcessQueue`. -/
structure QueueState where
  maxConcurrent : Nat
  pending : List Nat
  running : Finset Nat
deriving DecidableEq

/-- State built by `NewProcessQueue`. -/
def initState (m : Nat) : QueueState :=
  ⟨clampConcurrent m, [], ∅⟩

/-- One mutation of the queue under its lock: `Add` appends a task,
`SetMaxConcurrent` clamps and stores a new capacity, one iteration of
`processQueue`'s drain loop starts the head task when capacity allows,
and a finishing task removes itself from the running set. -/
inductive QStep : QueueState → QueueState → Prop
  | add (s : QueueState) (id : Nat) :
      QStep s ⟨s.maxConcurrent, s.pending ++ [id], s.running⟩
  | setMax (s : QueueState) (m : Nat) :
      QStep s ⟨clampConcurrent m, s.pending, s.running⟩
  | dispatch (s : QueueState) (id : Nat) (rest : List Nat) :
      s.pending = id :: rest → s.running.card < s.maxConcurrent →
      QStep s ⟨s.maxConcurrent, rest, insert id s.running⟩
  | complete (s : QueueState) (id : Nat) :
      id ∈ s.running → QStep s ⟨s.maxConcurrent, s.pending, s.running.erase id⟩

/-- States reachable from a freshly constructed queue. -/
def QReachable (m : Nat) (s : QueueState) : Prop :=
  Relation.ReflTransGen QStep (initState m) s

/-- Guarded step: like `QStep`, but capacity decreases below the current
running count are not taken. -/
def QStepGuarded (s s' : QueueState) : Prop :=
  QStep s s' ∧ s.running.card ≤ s'.maxConcurrent

/-- States reachable without ever shrinking capacity below the running
count. -/
def QReachableGuarded (m : Nat) (s : QueueState) : Prop :=
  Relation.ReflTransGen QStepGuarded (initState m) s


/-! ## Helper lemmas for `mergeAux` -/

/-- A non-short head is emitted and the loop continues, whatever the
output so far. -/
theorem mergeAux_cons_nonshort (s : List Char) (rest acc : List (List Char))
    (h : isShortFragment s = false) :
    mergeAux (s :: rest) acc = mergeAux rest (s :: acc) := by
  cases acc with
  | cons prev acc' => simp [mergeAux, h]
  | nil =>
    cases rest with
    | cons t rest' => simp [mergeAux, h]
    | nil => simp [mergeAux]

/-- With a previous output sentence, a short head is appended to it. -/
theorem mergeAux_cons_short_prev (s : List Char) (rest : List (List Char))
    (prev : List Char) (acc' : List (List Char)) (h : isShortFragment s = true) :
    mergeAux (s :: rest) (prev :: acc') = mergeAux rest ((prev ++ ' ' :: s) :: acc') := by
  simp [mergeAux, h]

/-- With no previous output sentence, a short head absorbs the next input
sentence. -/
theorem mergeAux_cons_short_next (s t : List Char) (rest' : List (List Char))
    (h : isShortFragment s = true) :
    mergeAux (s :: t :: rest') [] = mergeAux rest' [s ++ ' ' :: t] := by
  simp [mergeAux, h]

/-- When no input sentence is short, the loop copies its input after the
flushed accumulator. -/
theorem mergeAux_all_nonshort (xs : List (List Char)) :
    ∀ acc, (∀ s ∈ xs, isShortFragment s = false) →
      mergeAux xs acc = acc.reverse ++ xs := by
  induction xs with
  | nil => intro acc _; simp [mergeAux]
  | cons s rest ih =>
    intro acc h
    rw [mergeAux_cons_nonshort s rest acc (h s (by simp))]
    rw [ih (s :: acc) (fun x hx => h x (by simp [hx]))]
    simp

/-- A trailing short fragment after non-short sentences is appended to the
last of them. -/
theorem mergeAux_trailing (ys : List (List Char)) :
    ∀ (acc : List (List Char)) (y frag : List Char),
      (∀ s ∈ ys ++ [y], isShortFragment s = false) → isShortFragment frag = true →
      mergeAux (ys ++ [y] ++ [frag]) acc = acc.reverse ++ ys ++ [y ++ ' ' :: frag] := by
  induction ys with
  | nil =>
    intro acc y frag hl hs
    have hy : isShortFragment y = false := hl y (by simp)
    simp only [List.nil_append, List.cons_append]
    rw [mergeAux_cons_nonshort y [frag] acc hy]
    rw [mergeAux_cons_short_prev frag [] y acc hs]
    simp [mergeAux]
  | cons x ys' ih =>
    intro acc y frag hl hs
    have hx : isShortFragment x = false := hl x (by simp)
    have hstep : mergeAux ((x :: ys') ++ [y] ++ [frag]) acc
        = mergeAux (ys' ++ [y] ++ [frag]) (x :: acc) := by
      simpa using mergeAux_cons_nonshort x (ys' ++ [y] ++ [frag]) acc hx
    rw [hstep, ih (x :: acc) y frag (fun s hsm => hl s (by simp at hsm ⊢; tauto)) hs]
    simp

/-! ## Theorems for the claims -/

/-- C4 (counterexample): the text normalizer is not idempotent — on the
input `"¿:"` a second application changes the output again. -/
theorem normalize_not_idempotent_cx :
    normalizeTextForTTS (normalizeTextForTTS "¿:") ≠ normalizeTextForTTS "¿:" := by
  decide

/-- C4 (amended): `normalizeTextForTTS` is not idempotent: normalizing
`"¿:"` yields `"¿."` (the trailing colon becomes a period only after the
`¿…period` repair has already run), and re-normalizing that output yields
`"¿?"`; a third application is a no-op on this input. -/
theorem normalize_colon_chain :
    normalizeTextForTTS "¿:" = "¿." ∧ normalizeTextForTTS "¿." = "¿?" ∧
    normalizeTextForTTS "¿?" = "¿?" :=
  ⟨by decide, by decide, by decide⟩

/-- C6 (counterexample): segmenting `"Dr. Smith llegó. Se fue."` does not
yield two sentences. -/
theorem splitSentences_dr_smith_cx :
    (splitSentences "Dr. Smith llegó. Se fue.").length ≠ 2 := by
  decide

/-- C6 (amended): segmenting `"Dr. Smith llegó. Se fue."` yields exactly
one sentence, not split at `"Dr."`: the abbreviation is protected and the
scan produces two sentences, but `"Dr. Smith llegó."` counts fewer than 4
ASCII word runs and fewer than 30 bytes, so the short-fragment merge
rejoins the two. -/
theorem splitSentences_dr_smith :
    splitSentences "Dr. Smith llegó. Se fue." = ["Dr. Smith llegó. Se fue."] := by
  decide

/-- C10: on an empty file list `concatenateAudioNative` returns the
`"no audio files to concatenate"` error, leaves the file system untouched
(in particular creates no output file), and does not panic — the
embedding is a total function. -/
theorem concatenateAudioNative_empty (fs : FileSys) (out : String) :
    concatenateAudioNative fs [] out = (.error "no audio files to concatenate", fs) :=
  rfl

/-- C7 (counterexample): the scan's length guard counts UTF-8 bytes, not
characters.  On `"Ááááá. Bululu bonito."` the trimmed buffer `"Ááááá."`
has 6 characters but 11 bytes, so the source closes the buffer at the
period while the claim's character-counting scan does not. -/
theorem scan_guard_cx :
    scanSentences ("Ááááá. Bululu bonito.".data) [] =
      ["Ááááá.".data, "Bululu bonito.".data] ∧
    scanSentencesSpec ("Ááááá. Bululu bonito.".data) [] =
      ["Ááááá. Bululu bonito.".data] :=
  ⟨by decide, by decide⟩

set_option maxHeartbeats 2000000 in
/-- C7 (amended): during the character scan, a terminal mark that is not
at end of text closes the current buffer exactly when the next
non-whitespace rune is uppercase and the trimmed buffer is longer than 10
UTF-8 bytes, or that rune is `¿`/`¡` (`boundaryCloses`); end of text
always closes the buffer (emitting it when its trimmed byte length
exceeds 3). -/
theorem scan_boundary_iff :
    (∀ cur, scanSentences [] cur = pushIfLong (trimSpace cur)) ∧
    (∀ c cur, (c = '.' ∨ c = '!' ∨ c = '?') →
      scanSentences [c] cur = pushIfLong (trimSpace (cur ++ [c]))) ∧
    (∀ c cur rest, (c = '.' ∨ c = '!' ∨ c = '?') → rest ≠ [] →
      scanSentences (c :: rest) cur =
        if boundaryCloses (cur ++ [c]) rest then
          pushIfLong (trimSpace (cur ++ [c])) ++ scanSentences rest []
        else scanSentences rest (cur ++ [c])) := by
  refine ⟨fun cur => rfl, fun c cur hc => ?_, fun c cur rest hc hrest => ?_⟩
  · rcases hc with rfl | rfl | rfl <;> rfl
  · cases rest with
    | nil => exact absurd rfl hrest
    | cons r rs =>
      rcases hc with rfl | rfl | rfl <;>
      · rw [scanSentences.eq_def]
        unfold boundaryCloses
        cases h : ((r :: rs).dropWhile goIsSpace).head? with
        | none => simp [h]
        | some nm => simp only [h]; split <;> simp_all

/-- Witness for the C7 theorem at a concrete boundary. -/
theorem scan_boundary_iff_witness :
    scanSentences ('.' :: " Bululu".data) ("Palabras largas".data) =
      (if boundaryCloses ("Palabras largas".data ++ ['.']) (" Bululu".data) then
        pushIfLong (trimSpace ("Palabras largas".data ++ ['.'])) ++ scanSentences (" Bululu".data) []
      else scanSentences (" Bululu".data) ("Palabras largas".data ++ ['.'])) :=
  scan_boundary_iff.2.2 '.' ("Palabras largas".data) (" Bululu".data) (Or.inl rfl) (by decide)

/-- C8 (counterexample): the short-fragment test counts UTF-8 bytes and
ASCII `\w`-runs, not characters and words.  The trailing two-word
fragment `"ñáñáñáñáñáñáñá x"` (16 characters, 2 words — short by the
claim's reading) is 30 bytes, so the source leaves it standalone instead
of appending it to the preceding sentence. -/
theorem merge_short_cx :
    claimIsShortFragment ("ñáñáñáñáñáñáñá x".data) = true ∧
    mergeShortFragments ["Primera frase con muchas palabras aquí.", "ñáñáñáñáñáñáñá x"] =
      ["Primera frase con muchas palabras aquí.", "ñáñáñáñáñáñáñá x"] :=
  ⟨by decide, by decide⟩

/-- C8 (amended): `mergeShortFragments` treats a sentence with fewer than
4 ASCII word runs and fewer than 30 UTF-8 bytes as a short fragment and
(1) leaves inputs without short fragments unchanged, (2) appends a
trailing short fragment to the previous output sentence when one exists —
in particular a trailing two-word fragment meeting these thresholds —
(3) with no previous output merges it with the next input sentence,
consuming it, and (4) keeps a lone sentence standalone. -/
theorem mergeShortFragments_behavior :
    (∀ xs, (∀ s ∈ xs, isShortFragment s = false) → mergeShortChars xs = xs) ∧
    (∀ ys y frag, (∀ s ∈ ys ++ [y], isShortFragment s = false) →
      isShortFragment frag = true →
      mergeShortChars (ys ++ [y] ++ [frag]) = ys ++ [y ++ ' ' :: frag]) ∧
    (∀ frag t rest, isShortFragment frag = true →
      (∀ s ∈ rest, isShortFragment s = false) →
      mergeShortChars (frag :: t :: rest) = (frag ++ ' ' :: t) :: rest) ∧
    (∀ frag, mergeShortChars [frag] = [frag]) := by
  refine ⟨fun xs h => ?_, fun ys y frag hl hs => ?_, fun frag t rest hs hr => ?_, fun frag => ?_⟩
  · simpa using mergeAux_all_nonshort xs [] h
  · simpa using mergeAux_trailing ys [] y frag hl hs
  · unfold mergeShortChars
    rw [mergeAux_cons_short_next frag t rest hs]
    simpa using mergeAux_all_nonshort rest [frag ++ ' ' :: t] hr
  · simp [mergeShortChars, mergeAux]

/-- Witness for the C8 theorem: a trailing short two-word fragment is
appended to the preceding sentence. -/
theorem mergeShortFragments_behavior_witness :
    mergeShortChars (([] : List (List Char)) ++ ["Primera frase con muchas palabras aquí.".data] ++ ["Hola ya.".data]) =
      [] ++ ["Primera frase con muchas palabras aquí.".data ++ ' ' :: "Hola ya.".data] :=
  mergeShortFragments_behavior.2.1 [] ("Primera frase con muchas palabras aquí.".data)
    ("Hola ya.".data) (by decide) (by decide)
/-! ## Orchestrator helper lemmas -/

/-- After the write phase, each index written in the completion order
holds its own task's result, independent of that order. -/
theorem writePhase_apply (res : Nat → SentenceResult) (order : List Nat) :
    ∀ (arr : Nat → Option SentenceResult) (j : Nat),
      writePhase res order arr j = if j ∈ order then some (res j) else arr j := by
  induction order with
  | nil => intro arr j; simp [writePhase]
  | cons i rest ih =>
    intro arr j
    simp only [writePhase]
    rw [ih]
    by_cases hj : j ∈ rest
    · simp [hj]
    · by_cases hji : j = i
      · subst hji; simp [hj]
      · simp [hj, hji]

/-- Collection over error-free results returns the audio files in order
and deletes nothing. -/
theorem collectLoop_ok (l : List SentenceResult) :
    ∀ acc, (∀ r ∈ l, r.error = none) →
      collectLoop l acc = (.ok (acc ++ l.map SentenceResult.audioFile), []) := by
  induction l with
  | nil => intro acc _; simp [collectLoop]
  | cons r rest ih =>
    intro acc h
    have hr : r.error = none := h r (by simp)
    simp only [collectLoop, hr]
    rw [ih (acc ++ [r.audioFile]) (fun x hx => h x (by simp [hx]))]
    simp

/-- Collection stops at the first errored result, returning the error and
the files gathered so far. -/
theorem collectLoop_err (l1 : List SentenceResult) (r : SentenceResult)
    (l2 : List SentenceResult) (e : String) :
    ∀ acc, (∀ x ∈ l1, x.error = none) → r.error = some e →
      collectLoop (l1 ++ r :: l2) acc =
        (.error ("error processing sentence " ++ toString (r.index + 1) ++ ": " ++ e),
         acc ++ l1.map SentenceResult.audioFile) := by
  induction l1 with
  | nil => intro acc _ hr; simp [collectLoop, hr]
  | cons x rest ih =>
    intro acc h hr
    have hx : x.error = none := h x (by simp)
    simp only [List.cons_append, collectLoop, hx, List.append_eq]
    rw [ih (acc ++ [x.audioFile]) (fun y hy => h y (by simp [hy])) hr]
    simp

/-- C1: when every synthesis task succeeds, `generateAudioParallel`
returns the audio file paths ordered by original sentence index —
position `i` holds sentence `i`'s artifact — for every completion order
of the concurrently running tasks, because results are collected into an
index-addressed array of the input's length, written at each task's own
index; nothing is deleted. -/
theorem generateAudioParallel_ok_ordered
    (sentences : List String) (synth : Nat → Except String String)
    (files : Nat → String) (order : List Nat)
    (hperm : order.Perm (List.range sentences.length))
    (hok : ∀ i, i < sentences.length → synth i = .ok (files i)) :
    generateAudioParallel sentences synth order =
      (.ok ((List.range sentences.length).map files), []) := by
  simp only [generateAudioParallel]
  have hres : ∀ i ∈ List.range sentences.length,
      (writePhase (taskResult sentences synth) order (fun _ => none) i).getD zeroSentenceResult
        = taskResult sentences synth i := by
    intro i hi
    rw [writePhase_apply]
    simp [hperm.mem_iff.2 hi]
  rw [List.map_congr_left hres]
  rw [collectLoop_ok _ [] ?herr]
  case herr =>
    intro r hr
    obtain ⟨i, hi, rfl⟩ := List.mem_map.1 hr
    simp [taskResult, hok i (List.mem_range.1 hi)]
  simp only [List.nil_append, List.map_map]
  refine congrArg (fun l => (Except.ok l, [])) ?_
  refine List.map_congr_left ?_
  intro i hi
  simp [Function.comp, taskResult, hok i (List.mem_range.1 hi)]

/-- Witness for the C1 theorem at three sentences completing in the order
1, 2, 0. -/
theorem generateAudioParallel_ok_ordered_witness :
    generateAudioParallel ["a", "b", "c"] (fun i => .ok ("f" ++ toString i)) [1, 2, 0] =
      (.ok ((List.range (["a", "b", "c"] : List String).length).map
        (fun i => "f" ++ toString i)), []) :=
  generateAudioParallel_ok_ordered ["a", "b", "c"] _ (fun i => "f" ++ toString i)
    [1, 2, 0] (by decide) (fun i _ => rfl)

/-- C2 (counterexample): with three sentences where only the second fails,
the failure path deletes the first task's artifact but not the third's —
the artifact of the task whose index exceeds the first failing index is
leaked, contradicting "deletes every artifact already produced by the
sibling tasks". -/
theorem generateAudioParallel_cleanup_cx :
    generateAudioParallel ["s0", "s1", "s2"] cxSynth [2, 0, 1] =
      (.error "error processing sentence 2: boom", ["file0"]) ∧
    cxSynth 2 = .ok "file2" ∧
    "file2" ∉ (generateAudioParallel ["s0", "s1", "s2"] cxSynth [2, 0, 1]).2 :=
  ⟨by decide, by decide, by decide⟩

/-- C2 (amended): when some task fails, `generateAudioParallel` returns
the error of the lowest failing index `k` and no file list, and deletes
exactly the artifacts of the successful tasks at indices below `k`;
artifacts of successful tasks at indices above `k` are not deleted. -/
theorem generateAudioParallel_failure_cleanup
    (sentences : List String) (synth : Nat → Except String String)
    (files : Nat → String) (order : List Nat) (k : Nat) (e : String)
    (hperm : order.Perm (List.range sentences.length))
    (hk : k < sentences.length)
    (hok : ∀ i, i < k → synth i = .ok (files i))
    (hfail : synth k = .error e) :
    generateAudioParallel sentences synth order =
      (.error ("error processing sentence " ++ toString (k + 1) ++ ": " ++ e),
       (List.range k).map files) := by
  simp only [generateAudioParallel]
  have hres : ∀ i ∈ List.range sentences.length,
      (writePhase (taskResult sentences synth) order (fun _ => none) i).getD zeroSentenceResult
        = taskResult sentences synth i := by
    intro i hi
    rw [writePhase_apply]
    simp [hperm.mem_iff.2 hi]
  rw [List.map_congr_left hres]
  obtain ⟨m, hm⟩ : ∃ m, sentences.length = k + (m + 1) := ⟨sentences.length - k - 1, by omega⟩
  have hrange : List.range sentences.length =
      List.range k ++ k :: (List.range m).map (fun j => k + 1 + j) := by
    rw [hm, List.range_add, List.range_succ_eq_map]
    simp only [List.map_cons, Nat.add_zero, List.map_map]
    refine congrArg (fun l => List.range k ++ k :: l) ?_
    refine List.map_congr_left ?_
    intro j _
    simp [Function.comp, Nat.succ_eq_add_one]
    omega
  rw [hrange, List.map_append, List.map_cons]
  rw [collectLoop_err _ _ _ e _ ?hok1 ?herr1]
  case hok1 =>
    intro x hx
    obtain ⟨i, hi, rfl⟩ := List.mem_map.1 hx
    simp [taskResult, hok i (List.mem_range.1 hi)]
  case herr1 => simp [taskResult, hfail]
  simp only [taskResult, hfail, List.nil_append, List.map_map]
  refine congrArg₂ (fun a b => (Except.error a, b)) rfl ?_
  refine List.map_congr_left ?_
  intro i hi
  simp [Function.comp, taskResult, hok i (List.mem_range.1 hi)]

/-- Witness for the C2 theorem: the second of three tasks fails, the
first artifact is deleted. -/
theorem generateAudioParallel_failure_cleanup_witness :
    generateAudioParallel ["x", "y", "z"]
        (fun i => if i = 1 then .error "E" else .ok ("g" ++ toString i)) [0, 1, 2] =
      (.error ("error processing sentence " ++ toString (1 + 1) ++ ": " ++ "E"),
       (List.range 1).map (fun i => "g" ++ toString i)) :=
  generateAudioParallel_failure_cleanup ["x", "y", "z"] _ (fun i => "g" ++ toString i)
    [0, 1, 2] 1 "E" (by decide) (by decide)
    (fun i hi => by have h0 : i = 0 := Nat.lt_one_iff.mp hi; subst h0; rfl) rfl


/-! ## File-system helper lemmas for concatenation -/

/-- Reading after `os.Remove`: the removed path is gone, other paths are
unchanged. -/
theorem readWAVFile_removeFile (fs : FileSys) (f p : String) :
    readWAVFile (removeFile fs f) p =
      if p = f then .error "error opening WAV file" else readWAVFile fs p := by
  unfold readWAVFile removeFile
  by_cases hpf : p = f
  · subst hpf
    rw [if_pos rfl]
    have hnone : List.find? (fun x => x.1 = p) (List.filter (fun x => x.1 ≠ p) fs) = none := by
      refine List.find?_eq_none.2 (fun a ha => ?_)
      have := List.of_mem_filter ha
      simp_all
    rw [hnone]
  · rw [if_neg hpf]
    have heq : List.find? (fun x => x.1 = p) (List.filter (fun x => x.1 ≠ f) fs)
        = List.find? (fun x => x.1 = p) fs := by
      rw [List.find?_filter]
      congr 1
      funext a
      by_cases hap : a.1 = p
      · have hpf2 : ¬ p = f := hpf
        simp [hap, hpf2]
      · simp [hap]
    rw [heq]

/-- Reading after the deletion loop: deleted paths error, others are
unchanged. -/
theorem readWAVFile_foldl_remove (files : List String) :
    ∀ (fs : FileSys) (p : String),
      readWAVFile (files.foldl removeFile fs) p =
        if p ∈ files then .error "error opening WAV file" else readWAVFile fs p := by
  induction files with
  | nil => intro fs p; simp
  | cons f rest ih =>
    intro fs p
    simp only [List.foldl_cons]
    rw [ih]
    by_cases hp : p ∈ rest
    · simp [hp]
    · simp only [hp, if_false]
      rw [readWAVFile_removeFile]
      by_cases hpf : p = f <;> simp [hpf, hp]

/-- Reading after `writeWAVFile`: the written path returns the data,
other paths are unchanged. -/
theorem readWAVFile_write (fs : FileSys) (p : String) (d : WavData) (q : String) :
    readWAVFile (writeWAVFile fs p d) q = if q = p then .ok d else readWAVFile fs q := by
  by_cases hqp : q = p
  · subst hqp
    rw [if_pos rfl]
    unfold readWAVFile writeWAVFile
    rw [List.find?_cons_of_pos _ (by simp)]
  · rw [if_neg hqp]
    unfold writeWAVFile
    have h1 : readWAVFile ((p, d) :: removeFile fs p) q = readWAVFile (removeFile fs p) q := by
      unfold readWAVFile
      have hpq : ¬ p = q := fun hh => hqp hh.symm
      rw [List.find?_cons_of_neg _ (by simp [hpq])]
    rw [h1, readWAVFile_removeFile, if_neg hqp]

/-- The validation loop succeeds on readable, format-homogeneous files and
concatenates their samples in order. -/
theorem concatLoop_ok (fs : FileSys) (hdr : WAVHeader) (dat : String → WavData)
    (files : List String) :
    (∀ f ∈ files, readWAVFile fs f = .ok (dat f)) →
    (∀ f ∈ files, (dat f).header = hdr) →
    concatLoop fs hdr files = .ok ((files.map (fun f => (dat f).samples)).flatten) := by
  induction files with
  | nil => intro _ _; simp [concatLoop]
  | cons f rest ih =>
    intro hread hhdr
    have h1 := hread f (by simp)
    have h2 := hhdr f (by simp)
    simp only [concatLoop, h1, h2, if_pos rfl]
    rw [ih (fun x hx => hread x (by simp [hx])) (fun x hx => hhdr x (by simp [hx]))]
    simp

/-- The validation loop rejects the whole operation when some readable
file disagrees with the reference format. -/
theorem concatLoop_mismatch (fs : FileSys) (hdr : WAVHeader) (dat : String → WavData)
    (files : List String) :
    (∀ f ∈ files, readWAVFile fs f = .ok (dat f)) →
    (∃ f ∈ files, (dat f).header ≠ hdr) →
    ∃ g ∈ files, (dat g).header ≠ hdr ∧
      concatLoop fs hdr files = .error ("audio format mismatch in file " ++ g) := by
  induction files with
  | nil => rintro _ ⟨f, hf, _⟩; cases hf
  | cons f rest ih =>
    intro hread hex
    by_cases hf : (dat f).header = hdr
    · have hex' : ∃ g ∈ rest, (dat g).header ≠ hdr := by
        obtain ⟨g, hg, hgh⟩ := hex
        rcases List.mem_cons.1 hg with rfl | hg'
        · exact absurd hf hgh
        · exact ⟨g, hg', hgh⟩
      obtain ⟨g, hg, hgh, hloop⟩ := ih (fun x hx => hread x (by simp [hx])) hex'
      refine ⟨g, by simp [hg], hgh, ?_⟩
      simp [concatLoop, hread f (by simp), hf, hloop]
    · exact ⟨f, by simp, hf, by simp [concatLoop, hread f (by simp), hf]⟩

/-- C5: concatenation of a non-empty list of readable WAV files: (1) if
some later file differs from the first in sample rate, channel count or
bit depth, the call returns a format-mismatch error and the file system
is untouched — no output is written and no input deleted; (2) if all
formats match and the output path is fresh, the call succeeds, the output
holds the in-order concatenation of all samples under the first file's
header, the concatenated sample count is the sum of the inputs' counts,
and every per-sentence input file is deleted. -/
theorem concatenateAudioNative_spec :
    (∀ (fs : FileSys) (first : String) (rest : List String) (out : String)
       (dat : String → WavData),
       (∀ f ∈ first :: rest, readWAVFile fs f = .ok (dat f)) →
       (∃ f ∈ rest, (dat f).header ≠ (dat first).header) →
       ∃ g ∈ rest, (dat g).header ≠ (dat first).header ∧
         concatenateAudioNative fs (first :: rest) out =
           (.error ("audio format mismatch in file " ++ g), fs)) ∧
    (∀ (fs : FileSys) (first : String) (rest : List String) (out : String)
       (dat : String → WavData),
       (∀ f ∈ first :: rest, readWAVFile fs f = .ok (dat f)) →
       (∀ f ∈ rest, (dat f).header = (dat first).header) →
       out ∉ first :: rest →
       (concatenateAudioNative fs (first :: rest) out).1 = .ok () ∧
       readWAVFile (concatenateAudioNative fs (first :: rest) out).2 out =
         .ok ⟨(dat first).header, (((first :: rest).map (fun f => (dat f).samples)).flatten)⟩ ∧
       (((first :: rest).map (fun f => (dat f).samples)).flatten).length =
         (((first :: rest).map (fun f => (dat f).samples.length)).sum) ∧
       (∀ f ∈ first :: rest,
         readWAVFile (concatenateAudioNative fs (first :: rest) out).2 f =
           .error "error opening WAV file")) := by
  constructor
  · intro fs first rest out dat hread hex
    obtain ⟨g, hg, hgh, hloop⟩ :=
      concatLoop_mismatch fs (dat first).header dat rest
        (fun x hx => hread x (by simp [hx])) ⟨hex.choose, hex.choose_spec⟩
    refine ⟨g, hg, hgh, ?_⟩
    simp [concatenateAudioNative, hread first (by simp), hloop]
  · intro fs first rest out dat hread hfmt hout
    have hloop := concatLoop_ok fs (dat first).header dat rest
      (fun x hx => hread x (by simp [hx])) hfmt
    have hfirst := hread first (by simp)
    have hrw : concatenateAudioNative fs (first :: rest) out =
        (.ok (), (first :: rest).foldl removeFile
          (writeWAVFile fs out ⟨(dat first).header,
            (dat first).samples ++ ((rest.map (fun f => (dat f).samples)).flatten)⟩)) := by
      simp [concatenateAudioNative, hfirst, hloop]
    refine ⟨by rw [hrw], ?_, by simp [List.length_flatten, Function.comp_def], ?_⟩
    · rw [hrw]
      simp only
      rw [readWAVFile_foldl_remove]
      simp only [hout, if_false]
      rw [readWAVFile_write]
      simp
    · intro f hf
      rw [hrw]
      simp only
      rw [readWAVFile_foldl_remove]
      simp [hf]

/-- Witness for the C5 theorem: a mismatching pair is rejected with the
file system untouched, and a matching pair concatenates and deletes the
inputs. -/
theorem concatenateAudioNative_spec_witness :
    (∃ g ∈ ["c.wav"], (WavData.header ⟨⟨44100, 1, 16⟩, [7]⟩) ≠ (WavData.header ⟨⟨22050, 1, 16⟩, [1, 2]⟩) ∧
      concatenateAudioNative
          [("a.wav", ⟨⟨22050, 1, 16⟩, [1, 2]⟩), ("c.wav", ⟨⟨44100, 1, 16⟩, [7]⟩)]
          ["a.wav", "c.wav"] "out.wav" =
        (.error ("audio format mismatch in file " ++ g),
         [("a.wav", ⟨⟨22050, 1, 16⟩, [1, 2]⟩), ("c.wav", ⟨⟨44100, 1, 16⟩, [7]⟩)])) := by
  have h := concatenateAudioNative_spec.1
    [("a.wav", ⟨⟨22050, 1, 16⟩, [1, 2]⟩), ("c.wav", ⟨⟨44100, 1, 16⟩, [7]⟩)]
    "a.wav" ["c.wav"] "out.wav"
    (fun f => if f = "c.wav" then ⟨⟨44100, 1, 16⟩, [7]⟩ else ⟨⟨22050, 1, 16⟩, [1, 2]⟩)
    (by intro f hf; fin_cases hf <;> rfl)
    (by refine ⟨"c.wav", by simp, by decide⟩)
  obtain ⟨g, hg, hgh, heq⟩ := h
  have hgc : g = "c.wav" := by simpa using hg
  subst hgc
  exact ⟨"c.wav", by simp, hgh, heq⟩


/-! ## Long-sentence chunk invariant -/

/-- Byte length is zero only for the empty string (every rune encodes to
at least one byte). -/
theorem byteLen_eq_zero {s : List Char} (h : byteLen s = 0) : s = [] := by
  cases s with
  | nil => rfl
  | cons c rest =>
    exfalso
    have hc := Char.utf8Size_pos c
    simp [byteLen] at h
    omega

/-- Invariant of `splitLongSentence`'s accumulation loop: every emitted
chunk is the enhancement of a trimmed accumulator that is either a single
part or at most 200 bytes, and the live accumulator is empty, a single
part, or at most 200 bytes. -/
theorem splitLong_fold_inv (P0 : List (List Char)) (parts : List (List Char)) :
    ∀ (chunks : List (List Char)) (cur : List Char),
      (∀ p ∈ parts, p ∈ P0) →
      (∀ c ∈ chunks, ∃ cc, c = enhanceChars (trimSpace cc) ∧ (cc ∈ P0 ∨ byteLen cc ≤ 200)) →
      (cur = [] ∨ cur ∈ P0 ∨ byteLen cur ≤ 200) →
      (∀ c ∈ (parts.foldl splitLongStep (chunks, cur)).1,
         ∃ cc, c = enhanceChars (trimSpace cc) ∧ (cc ∈ P0 ∨ byteLen cc ≤ 200)) ∧
      ((parts.foldl splitLongStep (chunks, cur)).2 = [] ∨
        (parts.foldl splitLongStep (chunks, cur)).2 ∈ P0 ∨
        byteLen (parts.foldl splitLongStep (chunks, cur)).2 ≤ 200) := by
  induction parts with
  | nil =>
    intro chunks cur _ hchunks hcur
    exact ⟨hchunks, hcur⟩
  | cons part rest ih =>
    intro chunks cur hparts hchunks hcur
    simp only [List.foldl_cons]
    have hpart : part ∈ P0 := hparts part (by simp)
    have hrest : ∀ p ∈ rest, p ∈ P0 := fun p hp => hparts p (by simp [hp])
    unfold splitLongStep
    by_cases hflush : (0 < byteLen cur && 200 < byteLen (cur ++ part)) = true
    · rw [if_pos hflush]
      have hcur' : cur ∈ P0 ∨ byteLen cur ≤ 200 := by
        rcases hcur with rfl | h | h
        · simp [byteLen] at hflush
        · exact Or.inl h
        · exact Or.inr h
      refine ih _ part hrest ?_ (Or.inr (Or.inl hpart))
      intro c hc
      by_cases htrim : trimSpace cur ≠ []
      · rw [if_pos htrim] at hc
        rcases List.mem_append.1 hc with hc' | hc'
        · exact hchunks c hc'
        · rcases List.mem_singleton.1 hc' with rfl
          exact ⟨cur, rfl, hcur'⟩
      · rw [if_neg htrim] at hc
        exact hchunks c hc
    · rw [if_neg hflush]
      have hcases : byteLen cur = 0 ∨ byteLen (cur ++ part) ≤ 200 := by
        simp only [Bool.and_eq_true, decide_eq_true_eq] at hflush
        omega
      rcases hcases with h0 | h200
      · have hnil : cur = [] := byteLen_eq_zero h0
        subst hnil
        exact ih _ part hrest hchunks (Or.inr (Or.inl (by simpa using hpart)))
      · exact ih _ (cur ++ part) hrest hchunks (Or.inr (Or.inr h200))

/-- C9 (counterexample): a 451-byte sentence with no clause-break
connective comes back from `splitLongSentence` as a single chunk longer
than 200 characters. -/
theorem splitLong_chunk_cx :
    400 < byteLen (List.replicate 450 'a' ++ ['.']) ∧
    ((splitLongChars (List.replicate 450 'a' ++ ['.'])).all
      (fun c => byteLen c ≤ 200)) = false :=
  ⟨by decide, by decide⟩

/-- C9 (amended): the per-sentence step hard-splits every kept sentence
whose enhanced form exceeds 400 bytes with `splitLongSentence`, which
cuts only at clause-break connectives following a comma, colon or
semicolon (the parts of `goSplitParts`): every returned chunk is either
the whole sentence (when no chunk was assembled) or the re-enhanced trim
of an accumulated run that is a single connective-free part — possibly
longer than 200 bytes — or at most 200 bytes. -/
theorem splitLong_chunks_spec :
    (∀ s, 3 < byteLen (enhanceChars (restoreAbbrevs s)) →
      400 < byteLen (enhanceChars (restoreAbbrevs s)) →
      processSentence s = splitLongChars (enhanceChars (restoreAbbrevs s))) ∧
    (∀ sentence c, c ∈ splitLongChars sentence →
      c = sentence ∨ ∃ cc, c = enhanceChars (trimSpace cc) ∧
        (cc ∈ goSplitParts sentence [] ∨ byteLen cc ≤ 200)) := by
  constructor
  · intro s h3 h400
    simp [processSentence, h3, h400]
  · intro sentence c hc
    simp only [splitLongChars] at hc
    by_cases hchunks : (if trimSpace (List.foldl splitLongStep ([], []) (goSplitParts sentence [])).2 ≠ [] then
        (List.foldl splitLongStep ([], []) (goSplitParts sentence [])).1 ++
          [enhanceChars (trimSpace (List.foldl splitLongStep ([], []) (goSplitParts sentence [])).2)]
      else (List.foldl splitLongStep ([], []) (goSplitParts sentence [])).1) = []
    · rw [if_pos hchunks] at hc
      exact Or.inl (List.mem_singleton.1 hc)
    · rw [if_neg hchunks] at hc
      right
      have hinv := splitLong_fold_inv (goSplitParts sentence []) (goSplitParts sentence [])
        [] [] (fun p hp => hp) (by simp) (Or.inl rfl)
      by_cases htrim : trimSpace (List.foldl splitLongStep ([], []) (goSplitParts sentence [])).2 ≠ []
      · rw [if_pos htrim] at hc
        rcases List.mem_append.1 hc with hc' | hc'
        · exact hinv.1 c hc'
        · rcases List.mem_singleton.1 hc' with rfl
          refine ⟨(List.foldl splitLongStep ([], []) (goSplitParts sentence [])).2, rfl, ?_⟩
          rcases hinv.2 with hnil | h | h
          · exact absurd (by rw [hnil]; rfl) htrim
          · exact Or.inl h
          · exact Or.inr h
      · rw [if_neg htrim] at hc
        exact hinv.1 c hc

/-- Witness for the C9 theorem at a concrete two-part sentence. -/
theorem splitLong_chunks_spec_witness :
    ("abc xyz.".data = "abc, pero xyz.".data ∨
      ∃ cc, "abc xyz.".data = enhanceChars (trimSpace cc) ∧
        (cc ∈ goSplitParts ("abc, pero xyz.".data) [] ∨ byteLen cc ≤ 200)) :=
  splitLong_chunks_spec.2 ("abc, pero xyz.".data) ("abc xyz.".data) (by decide)


/-! ## Queue theorems -/

/-- Clamping produces a capacity of at least 1. -/
theorem clampConcurrent_pos (m : Nat) : 1 ≤ clampConcurrent m := by
  unfold clampConcurrent
  by_cases h1 : m < 1
  · simp [h1]
  · by_cases h2 : m > 32
    · simp [h1, h2]
    · simp [h1, h2]; omega

/-- Clamping produces a capacity of at most 32. -/
theorem clampConcurrent_le (m : Nat) : clampConcurrent m ≤ 32 := by
  unfold clampConcurrent
  by_cases h1 : m < 1
  · simp [h1]
  · by_cases h2 : m > 32
    · simp [h1, h2]
    · simp [h1, h2]; omega

/-- C3 (counterexample): the invariant "running count never exceeds
capacity at every instant" fails right after a capacity decrease: from a
fresh queue of capacity 2, adding and dispatching two tasks and then
setting the capacity to 1 reaches a state with 2 running tasks and
capacity 1. -/
theorem queue_capacity_cx :
    QReachable 2 ⟨1, [], insert 8 (insert 7 (∅ : Finset ℕ))⟩ ∧
    (⟨1, [], insert 8 (insert 7 (∅ : Finset ℕ))⟩ : QueueState).maxConcurrent <
      (insert 8 (insert 7 (∅ : Finset ℕ)) : Finset ℕ).card := by
  constructor
  · have h1 : QStep (initState 2) ⟨2, [7], ∅⟩ := by
      have := QStep.add (initState 2) 7
      simpa [initState, clampConcurrent] using this
    have h2 : QStep ⟨2, [7], ∅⟩ ⟨2, [7, 8], ∅⟩ := by
      have := QStep.add ⟨2, [7], (∅ : Finset ℕ)⟩ 8
      simpa using this
    have h3 : QStep ⟨2, [7, 8], ∅⟩ ⟨2, [8], insert 7 ∅⟩ := by
      have := QStep.dispatch ⟨2, [7, 8], (∅ : Finset ℕ)⟩ 7 [8] rfl (by simp)
      simpa using this
    have h4 : QStep ⟨2, [8], insert 7 ∅⟩ ⟨2, [], insert 8 (insert 7 ∅)⟩ := by
      have := QStep.dispatch ⟨2, [8], insert 7 (∅ : Finset ℕ)⟩ 8 [] rfl (by simp)
      simpa using this
    have h5 : QStep ⟨2, [], insert 8 (insert 7 ∅)⟩ ⟨1, [], insert 8 (insert 7 ∅)⟩ := by
      have := QStep.setMax ⟨2, [], insert 8 (insert 7 (∅ : Finset ℕ))⟩ 1
      simpa [clampConcurrent] using this
    exact .tail (.tail (.tail (.tail (.tail .refl h1) h2) h3) h4) h5
  · simp

/-- C3 (amended): in every reachable state the capacity is in `[1,32]`
and the running count is at most 32, and a dispatch step starts a new
task only while the running count is below capacity (so it never pushes
the count above capacity); the stronger bound `running ≤ capacity` holds
in every state reachable without a capacity decrease below the current
running count — running tasks are never aborted, so after such a decrease
the bound can fail transiently (see the counterexample). -/
theorem queue_invariants :
    (∀ m s, QReachable m s →
      1 ≤ s.maxConcurrent ∧ s.maxConcurrent ≤ 32 ∧ s.running.card ≤ 32) ∧
    (∀ s : QueueState, ∀ id rest, s.pending = id :: rest →
      s.running.card < s.maxConcurrent →
      (insert id s.running).card ≤ s.maxConcurrent) ∧
    (∀ m s, QReachableGuarded m s → s.running.card ≤ s.maxConcurrent) := by
  refine ⟨fun m s h => ?_, fun s id rest _ hlt => ?_, fun m s h => ?_⟩
  · induction h with
    | refl =>
      exact ⟨clampConcurrent_pos m, clampConcurrent_le m, by simp [initState]⟩
    | @tail b c hr hstep ih =>
      obtain ⟨ih1, ih2, ih3⟩ := ih
      cases hstep with
      | add id => exact ⟨ih1, ih2, ih3⟩
      | setMax mm => exact ⟨clampConcurrent_pos mm, clampConcurrent_le mm, ih3⟩
      | dispatch id rest hp hlt =>
        refine ⟨ih1, ih2, ?_⟩
        have hc := Finset.card_insert_le id b.running
        simp only
        omega
      | complete id hmem =>
        refine ⟨ih1, ih2, ?_⟩
        have hc := Finset.card_erase_le (s := b.running) (a := id)
        simp only
        omega
  · have hc := Finset.card_insert_le id s.running
    omega
  · induction h with
    | refl => simp [initState]
    | @tail b c hr hstep ih =>
      obtain ⟨hstep', hguard⟩ := hstep
      cases hstep' with
      | add id => exact ih
      | setMax mm => exact hguard
      | dispatch id rest hp hlt =>
        have hc := Finset.card_insert_le id b.running
        simp only
        omega
      | complete id hmem =>
        have hc := Finset.card_erase_le (s := b.running) (a := id)
        simp only
        omega

/-- Witness for the C3 theorem at a freshly constructed queue. -/
theorem queue_invariants_witness :
    1 ≤ (initState 5).maxConcurrent ∧ (initState 5).maxConcurrent ≤ 32 ∧
      (initState 5).running.card ≤ 32 :=
  queue_invariants.1 5 (initState 5) Relation.ReflTransGen.refl


end GoPiper
